import Mathlib

/-!
Verification development for the VoxelVerse relay server (src/server.js and the
variant in src/unnamed/part_000).

The server keeps its state in nested JavaScript `Map`s (insertion-ordered) and
JavaScript `Set`s.  We embed a `Map` as an insertion-ordered association list
`List (K × V)`:

* `jget m k`   embeds `m.get(k)` (first matching entry);
* `jset m k v` embeds `m.set(k, v)` (update the existing entry in place,
  otherwise append at the end — exactly the insertion-order behaviour of a
  JavaScript `Map`);
* `jdel m k`   embeds `m.delete(k)` (remove the entry for `k`);
* `jhas m k`   embeds `m.has(k)`;
* `List.length` embeds `m.size` (the lists built by these operations never
  hold duplicate keys).

JavaScript numbers are IEEE doubles; every numeric field the server stores is
guarded by `Number.isFinite`.  We embed finite numeric values as `Int`
(the specification describes block coordinates and ids as integers) and model
"the JavaScript coercion `Number(v)` produced a non-finite result" as `none`
of an `Option Int`.
-/

namespace VoxelVerse

section JMap

variable {K V : Type} [DecidableEq K]

/-- Embedding of JavaScript `Map.prototype.get`: first entry with the key. -/
def jget : List (K × V) → K → Option V
  | [], _ => none
  | (k, v) :: rest, key => if k = key then some v else jget rest key

/-- Embedding of JavaScript `Map.prototype.set`: replace the existing entry in
place, otherwise append a fresh entry at the end. -/
def jset : List (K × V) → K → V → List (K × V)
  | [], key, val => [(key, val)]
  | (k, v) :: rest, key, val =>
    if k = key then (key, val) :: rest else (k, v) :: jset rest key val

/-- Embedding of JavaScript `Map.prototype.delete`: drop the entry with the key. -/
def jdel : List (K × V) → K → List (K × V)
  | [], _ => []
  | (k, v) :: rest, key => if k = key then rest else (k, v) :: jdel rest key

/-- Embedding of JavaScript `Map.prototype.has`. -/
def jhas (m : List (K × V)) (k : K) : Bool :=
  (jget m k).isSome

/-- The association list has no two entries with the same key (always true of
lists built by `jset` and `jdel` from `[]`, mirroring a JavaScript `Map`). -/
abbrev NodupKeys (m : List (K × V)) : Prop :=
  (m.map Prod.fst).Nodup

theorem nodupKeys_nil : NodupKeys ([] : List (K × V)) := by
  simp [NodupKeys]

theorem jget_jset_self (m : List (K × V)) (k : K) (v : V) :
    jget (jset m k v) k = some v := by
  induction m with
  | nil => simp [jset, jget]
  | cons a rest ih =>
    obtain ⟨k₁, v₁⟩ := a
    by_cases h : k₁ = k
    · simp [jset, h, jget]
    · simp [jset, h, jget, ih]

theorem jget_jset_ne (m : List (K × V)) {k' k : K} (v : V) (h : k' ≠ k) :
    jget (jset m k' v) k = jget m k := by
  induction m with
  | nil => simp [jset, jget, h]
  | cons a rest ih =>
    obtain ⟨k₁, v₁⟩ := a
    by_cases h₁ : k₁ = k'
    · subst h₁
      simp [jset, jget, h]
    · by_cases h₂ : k₁ = k <;>
        simp [jset, h₁, jget, h₂, ih, Ne.symm h]

theorem jget_jdel_ne (m : List (K × V)) {k' k : K} (h : k' ≠ k) :
    jget (jdel m k') k = jget m k := by
  induction m with
  | nil => simp [jdel]
  | cons a rest ih =>
    obtain ⟨k₁, v₁⟩ := a
    by_cases h₁ : k₁ = k'
    · subst h₁
      simp [jdel, jget, h]
    · by_cases h₂ : k₁ = k <;>
        simp [jdel, h₁, jget, h₂, ih, Ne.symm h]

theorem jget_eq_none_iff (m : List (K × V)) (k : K) :
    jget m k = none ↔ k ∉ m.map Prod.fst := by
  induction m with
  | nil => simp [jget]
  | cons a rest ih =>
    obtain ⟨k₁, v₁⟩ := a
    by_cases h : k₁ = k
    · simp [jget, h]
    · simp [jget, h, ih, Ne.symm h]

theorem jget_jdel_self (m : List (K × V)) (k : K) (h : NodupKeys m) :
    jget (jdel m k) k = none := by
  induction m with
  | nil => simp [jdel, jget]
  | cons a rest ih =>
    obtain ⟨k₁, v₁⟩ := a
    have h' : NodupKeys rest := (List.nodup_cons.mp h).2
    by_cases hk : k₁ = k
    · subst hk
      have : k₁ ∉ rest.map Prod.fst := (List.nodup_cons.mp h).1
      simpa [jdel, jget_eq_none_iff] using this
    · simp [jdel, hk, jget, ih h']

theorem jset_jset_same (m : List (K × V)) (k : K) (v w : V) :
    jset (jset m k v) k w = jset m k w := by
  induction m with
  | nil => simp [jset]
  | cons a rest ih =>
    obtain ⟨k₁, v₁⟩ := a
    by_cases h : k₁ = k
    · simp [jset, h]
    · simp [jset, h, ih]

theorem jdel_jset_same (m : List (K × V)) (k : K) (v : V) :
    jdel (jset m k v) k = jdel m k := by
  induction m with
  | nil => simp [jset, jdel]
  | cons a rest ih =>
    obtain ⟨k₁, v₁⟩ := a
    by_cases h : k₁ = k
    · simp [jset, jdel, h]
    · simp [jset, jdel, h, ih]

theorem jset_of_jget_eq (m : List (K × V)) (k : K) (v : V)
    (h : jget m k = some v) : jset m k v = m := by
  induction m with
  | nil => simp [jget] at h
  | cons a rest ih =>
    obtain ⟨k₁, v₁⟩ := a
    by_cases hk : k₁ = k
    · subst hk
      simp [jget] at h
      simp [jset, h]
    · simp [jget, hk] at h
      simp [jset, hk, ih h]

theorem jdel_of_jget_none (m : List (K × V)) (k : K)
    (h : jget m k = none) : jdel m k = m := by
  induction m with
  | nil => simp [jdel]
  | cons a rest ih =>
    obtain ⟨k₁, v₁⟩ := a
    by_cases hk : k₁ = k
    · simp [jget, hk] at h
    · simp [jget, hk] at h
      simp [jdel, hk, ih h]

theorem mem_of_jget (m : List (K × V)) (k : K) (v : V)
    (h : jget m k = some v) : (k, v) ∈ m := by
  induction m with
  | nil => simp [jget] at h
  | cons a rest ih =>
    obtain ⟨k₁, v₁⟩ := a
    by_cases hk : k₁ = k
    · subst hk
      simp [jget] at h
      simp [h]
    · simp [jget, hk] at h
      simp [ih h]

theorem jget_of_mem (m : List (K × V)) (k : K) (v : V)
    (hnd : NodupKeys m) (h : (k, v) ∈ m) : jget m k = some v := by
  induction m with
  | nil => simp at h
  | cons a rest ih =>
    obtain ⟨k₁, v₁⟩ := a
    have hnd' : NodupKeys rest := (List.nodup_cons.mp hnd).2
    rcases List.mem_cons.mp h with h₁ | h₁
    · obtain ⟨hk, hv⟩ := Prod.mk.injEq .. ▸ h₁
      simp [jget, hk.symm, hv]
    · by_cases hk : k₁ = k
      · subst hk
        exfalso
        exact (List.nodup_cons.mp hnd).1
          (List.mem_map.mpr ⟨(k₁, v), h₁, rfl⟩)
      · simp [jget, hk, ih hnd' h₁]

theorem mem_jset (m : List (K × V)) (k : K) (v : V) {a : K × V}
    (h : a ∈ jset m k v) : a ∈ m ∨ a = (k, v) := by
  induction m with
  | nil => simp [jset] at h; simp [h]
  | cons b rest ih =>
    obtain ⟨k₁, v₁⟩ := b
    by_cases hk : k₁ = k
    · simp [jset, hk] at h
      rcases h with h | h
      · right; simp [h]
      · left; simp [h]
    · simp [jset, hk] at h
      rcases h with h | h
      · left; simp [h]
      · rcases ih h with h' | h'
        · left; simp [h']
        · right; exact h'

theorem jdel_sublist (m : List (K × V)) (k : K) : (jdel m k).Sublist m := by
  induction m with
  | nil => simp [jdel]
  | cons a rest ih =>
    obtain ⟨k₁, v₁⟩ := a
    by_cases hk : k₁ = k
    · simpa [jdel, hk] using List.sublist_cons_self (k₁, v₁) rest
    · simpa [jdel, hk] using ih.cons₂ (k₁, v₁)

theorem mem_jdel (m : List (K × V)) (k : K) {a : K × V}
    (h : a ∈ jdel m k) : a ∈ m :=
  (jdel_sublist m k).mem h

theorem keys_jset_subset (m : List (K × V)) (k : K) (v : V) {b : K}
    (h : b ∈ (jset m k v).map Prod.fst) : b = k ∨ b ∈ m.map Prod.fst := by
  obtain ⟨a, ha, rfl⟩ := List.mem_map.mp h
  rcases mem_jset m k v ha with h' | h'
  · right
    exact List.mem_map.mpr ⟨a, h', rfl⟩
  · left
    simp [h']

theorem nodupKeys_jset (m : List (K × V)) (k : K) (v : V)
    (h : NodupKeys m) : NodupKeys (jset m k v) := by
  induction m with
  | nil => simp [jset, NodupKeys]
  | cons a rest ih =>
    obtain ⟨k₁, v₁⟩ := a
    simp only [NodupKeys, List.map_cons, List.nodup_cons] at h
    obtain ⟨hni, hnd⟩ := h
    by_cases hk : k₁ = k
    · subst hk
      have hstep : jset ((k₁, v₁) :: rest) k₁ v = (k₁, v) :: rest := by
        simp [jset]
      rw [hstep]
      simpa [NodupKeys] using And.intro hni hnd
    · simp only [jset, if_neg hk, NodupKeys, List.map_cons, List.nodup_cons]
      refine ⟨?_, ih hnd⟩
      intro hmem
      rcases keys_jset_subset rest k v hmem with h' | h'
      · exact hk h'
      · exact hni h'

theorem nodupKeys_jdel (m : List (K × V)) (k : K)
    (h : NodupKeys m) : NodupKeys (jdel m k) :=
  List.Nodup.sublist (List.Sublist.map Prod.fst (jdel_sublist m k)) h

theorem jset_append (m : List (K × V)) (k : K) (v : V)
    (h : jget m k = none) : jset m k v = m ++ [(k, v)] := by
  induction m with
  | nil => simp [jset]
  | cons a rest ih =>
    obtain ⟨k₁, v₁⟩ := a
    by_cases hk : k₁ = k
    · simp [jget, hk] at h
    · simp [jget, hk] at h
      simp [jset, hk, ih h]

theorem jset_ne_nil (m : List (K × V)) (k : K) (v : V) : jset m k v ≠ [] := by
  cases m with
  | nil => simp [jset]
  | cons a rest =>
    obtain ⟨k₁, v₁⟩ := a
    by_cases hk : k₁ = k <;> simp [jset, hk]

theorem jdel_eq_nil (m : List (K × V)) (k : K) (h : jdel m k = []) :
    m = [] ∨ ∃ v, m = [(k, v)] := by
  cases m with
  | nil => left; rfl
  | cons a rest =>
    obtain ⟨k₁, v₁⟩ := a
    by_cases hk : k₁ = k
    · subst hk
      simp [jdel] at h
      right; exact ⟨v₁, by simp [h]⟩
    · simp [jdel, hk] at h

end JMap

/-! ## The chunked world store (src/server.js lines 10, 18-32, 58-127)

`roomChunks` is `Map room -> Map chunkKey -> Map blockKey -> {x, y, z, id}`.
Chunk keys are the strings produced by `blockChunkKey`; block keys are the
strings produced by `blockKey`.  The block-key rendering is injective on
integer triples (an `Int` rendering never contains a comma), so we embed the
block key as the triple itself; the chunk key stays a `String` because
`hydrateWorldState` stores chunks under whatever string key the document
carries. -/

/-- A stored block record `{ x, y, z, id }` (src/server.js line 18). -/
structure Block where
  x : Int
  y : Int
  z : Int
  id : Int
deriving DecidableEq, Repr

/-- Embeds the JavaScript string key `blockKey(x, y, z)`; injective rendering,
so we keep the triple. -/
abbrev BlockKey := Int × Int × Int

abbrev ChunkMap := List (BlockKey × Block)

abbrev RoomMap := List (String × ChunkMap)

abbrev World := List (String × RoomMap)

/-- CHUNK_SIZE (src/server.js line 10). -/
def CHUNK_SIZE : Int := 16

/-- Renders the string pair key used both by `blockChunkKey` and by the
CHUNK_REQUEST lookup in `getChunkBlocks` (template `cx + "," + cz`). -/
def coordKey (a b : Int) : String :=
  toString a ++ "," ++ toString b

/-- blockChunkKey (src/server.js lines 26-28); `Math.floor(x / 16)` on an
integer coordinate is floored division. -/
def blockChunkKey (x z : Int) : String :=
  coordKey (Int.fdiv x CHUNK_SIZE) (Int.fdiv z CHUNK_SIZE)

/-- ensureRoomChunks (src/server.js lines 58-61): insert an empty chunk map
for the room when absent; return the updated world and the room's chunk map. -/
def ensureRoomChunks (w : World) (room : String) : World × RoomMap :=
  let w1 := if jhas w room then w else jset w room []
  (w1, (jget w1 room).getD [])

/-- setRoomBlock (src/server.js lines 63-80).  The JavaScript mutates the
nested maps in place; the embedding writes each level back explicitly.
`schedulePersist` is I/O and does not touch the store, so it has no
counterpart here. -/
def setRoomBlock (w : World) (room : String) (x y z id : Int) : World :=
  let p := ensureRoomChunks w room
  let w1 := p.1
  let chunks := p.2
  let cKey := blockChunkKey x z
  let chunks1 := if jhas chunks cKey then chunks else jset chunks cKey []
  let cMap := (jget chunks1 cKey).getD []
  let bKey : BlockKey := (x, y, z)
  if id ≤ 0 then
    let cMap2 := jdel cMap bKey
    let chunks2 := if cMap2.length = 0 then jdel chunks1 cKey else jset chunks1 cKey cMap2
    if chunks2.length = 0 then jdel w1 room else jset w1 room chunks2
  else
    let cMap2 := jset cMap bKey { x := x, y := y, z := z, id := id }
    let chunks2 := jset chunks1 cKey cMap2
    jset w1 room chunks2

/-- getChunkBlocks (src/server.js lines 82-88): the block list of the chunk,
or `[]` when the room or the chunk is absent.  `Array.from(cMap.values())` is
the list of stored records in insertion order. -/
def getChunkBlocks (w : World) (room : String) (cx cz : Int) : List Block :=
  match jget w room with
  | none => []
  | some chunks =>
    match jget chunks (coordKey cx cz) with
    | none => []
    | some cMap => cMap.map Prod.snd

/-- The id stored at one coordinate of one room, read along the same access
path the source uses (room map, then chunk `blockChunkKey x z`, then block
key): `none` when no record is present. -/
def getBlock (w : World) (room : String) (x y z : Int) : Option Int :=
  match jget w room with
  | none => none
  | some chunks =>
    match jget chunks (blockChunkKey x z) with
    | none => none
    | some cMap => (jget cMap (x, y, z)).map Block.id

/-! ## Persistence documents (src/server.js lines 90-127)

The serialized document is the JSON value
`{ rooms: { room: { "cx,cz": [ { x, y, z, id }, ... ] } } }`.
`hydrateWorldState` accepts an arbitrary JSON value, so the embedding keeps
exactly the structure the function inspects:

* `RawDoc.nonObject` — the argument is falsy or not an object
  (`!raw || typeof raw !== "object"`);
* `RawDoc.obj none` — an object whose `rooms` field is missing, falsy or not
  an object (`!raw.rooms || typeof raw.rooms !== "object"`);
* `RawDoc.obj (some rooms)` — `rooms` as a list of entries in
  `Object.entries` order.  A room value that is falsy or not an object is
  `none`; a chunk value that is not an array is `none`; each array element is
  a `RawBlock` whose fields are the results of the `Number(b?.x)` coercions,
  with `none` standing for a non-finite result (`NaN`, `Infinity`) and
  `some n` for a finite value (restricted to integers in this embedding). -/

structure RawBlock where
  x : Option Int
  y : Option Int
  z : Option Int
  id : Option Int
deriving DecidableEq, Repr

inductive RawDoc where
  | nonObject
  | obj (rooms : Option (List (String × Option (List (String × Option (List RawBlock))))))
deriving Repr

/-- The block records a serialized store emits are plain finite numbers. -/
def rawOfBlock (b : Block) : RawBlock :=
  { x := some b.x, y := some b.y, z := some b.z, id := some b.id }

/-- serializeWorldState (src/server.js lines 90-100): walk the whole store and
emit the sparse rooms/chunks/blocks document. -/
def serializeWorldState (w : World) : RawDoc :=
  .obj (some (w.map fun re =>
    (re.1, some (re.2.map fun ce =>
      (ce.1, some (ce.2.map fun be => rawOfBlock be.2))))))

/-- Body of the inner block loop of hydrateWorldState (src/server.js lines
113-121): parse one array element, drop it when a field is non-finite or
`id <= 0`, otherwise store it under `blockKey(x, y, z)` of the parsed
fields. -/
def hydrateBlockStep (blockMap : ChunkMap) (b : RawBlock) : ChunkMap :=
  match b.x, b.y, b.z, b.id with
  | some x, some y, some z, some id =>
    if id ≤ 0 then blockMap
    else jset blockMap (x, y, z) { x := x, y := y, z := z, id := id }
  | _, _, _, _ => blockMap

/-- Inner loop of hydrateWorldState (src/server.js lines 113-121). -/
def hydrateBlocks (blocks : List RawBlock) : ChunkMap :=
  blocks.foldl hydrateBlockStep []

/-- Body of the chunk loop of hydrateWorldState (src/server.js lines 110-123):
skip a chunk entry that is not an array, keep it only when its block map is
non-empty. -/
def hydrateChunkStep (chunks : RoomMap) (ce : String × Option (List RawBlock)) : RoomMap :=
  match ce.2 with
  | none => chunks
  | some blocks =>
    let blockMap := hydrateBlocks blocks
    if blockMap.length > 0 then jset chunks ce.1 blockMap else chunks

/-- Chunk loop of hydrateWorldState (src/server.js lines 110-123). -/
def hydrateRoomData (roomData : List (String × Option (List RawBlock))) : RoomMap :=
  roomData.foldl hydrateChunkStep []

/-- Body of the room loop of hydrateWorldState (src/server.js lines 106-126):
skip a room entry that is falsy or not an object, keep a room only when its
chunk map is non-empty. -/
def hydrateRoomStep (w : World)
    (re : String × Option (List (String × Option (List RawBlock)))) : World :=
  match re.2 with
  | none => w
  | some roomData =>
    let chunks := hydrateRoomData roomData
    if chunks.length > 0 then jset w re.1 chunks else w

/-- hydrateWorldState (src/server.js lines 102-127).  The source first runs
`roomChunks.clear()` and only then validates `raw`; the embedding therefore
takes the previous store as an argument and never reads it. -/
def hydrateWorldState (prev : World) (raw : RawDoc) : World :=
  match raw with
  | .nonObject => []
  | .obj none => []
  | .obj (some rooms) => rooms.foldl hydrateRoomStep []

/-! ## Reachable store states -/

/-- One store mutation: a `setRoomBlock` call (the accepted BLOCK path) or a
`hydrateWorldState` call. -/
inductive StoreOp where
  | set (room : String) (x y z id : Int)
  | hyd (raw : RawDoc)
deriving Repr

def applyStoreOp (w : World) : StoreOp → World
  | .set room x y z id => setRoomBlock w room x y z id
  | .hyd raw => hydrateWorldState w raw

/-- The store after a sequence of mutations applied to the initially empty
store. -/
def runStoreOps (ops : List StoreOp) : World :=
  ops.foldl applyStoreOp []

/-- One `setBlock` call, as in the claim about last-write-wins. -/
structure SetCall where
  room : String
  x : Int
  y : Int
  z : Int
  id : Int
deriving Repr

/-- The store after a sequence of `setRoomBlock` calls applied to the
initially empty store. -/
def runSetCalls (calls : List SetCall) : World :=
  calls.foldl (fun w c => setRoomBlock w c.room c.x c.y c.z c.id) []

/-- Specification-side definition, following the words of the claim: scan the
call sequence in order and keep, per (room, x, y, z), the effect of the last
call touching that coordinate — `some id` for `id > 0`, `none` (removed) for
`id <= 0`. -/
def lastWriteId (calls : List SetCall) (room : String) (x y z : Int) : Option Int :=
  calls.foldl (fun acc c =>
    if c.room = room ∧ c.x = x ∧ c.y = y ∧ c.z = z then
      (if 0 < c.id then some c.id else none)
    else acc) none

/-! ## Store invariants -/

/-- Well-formedness of one chunk map: non-empty, unique keys, every record is
keyed by its own coordinates and has a positive id. -/
def ChunkWF (cMap : ChunkMap) : Prop :=
  cMap ≠ [] ∧ NodupKeys cMap ∧
    ∀ be ∈ cMap, be.1 = (be.2.x, be.2.y, be.2.z) ∧ 0 < be.2.id

/-- Well-formedness of one room's chunk map: non-empty, unique keys,
well-formed chunks. -/
def RoomWF (chunks : RoomMap) : Prop :=
  chunks ≠ [] ∧ NodupKeys chunks ∧ ∀ ce ∈ chunks, ChunkWF ce.2

/-- Well-formedness of the whole store. -/
def WorldWF (w : World) : Prop :=
  NodupKeys w ∧ ∀ re ∈ w, RoomWF re.2

/-- Executable form of the sparse-store invariant of the specification: no
empty room entry, no empty chunk, no record with `id <= 0`. -/
def storeInv (w : World) : Bool :=
  w.all fun re =>
    (!re.2.isEmpty) && re.2.all fun ce =>
      (!ce.2.isEmpty) && ce.2.all fun be => decide (0 < be.2.id)

theorem worldWF_nil : WorldWF [] := by
  simp [WorldWF, NodupKeys]

/-! ### Normal form of `setRoomBlock`

The source ensures that the room and chunk containers exist before mutating
them; the following lemmas collapse that ensure-then-mutate pattern. -/

theorem jdel_ensure {K V : Type} [DecidableEq K] (m : List (K × V)) (k : K) (e : V) :
    jdel (if jhas m k then m else jset m k e) k = jdel m k := by
  cases hg : jget m k with
  | none => simp [jhas, hg, jdel_jset_same]
  | some v => simp [jhas, hg]

theorem jset_ensure {K V : Type} [DecidableEq K] (m : List (K × V)) (k : K) (e v : V) :
    jset (if jhas m k then m else jset m k e) k v = jset m k v := by
  cases hg : jget m k with
  | none => simp [jhas, hg, jset_jset_same]
  | some v' => simp [jhas, hg]

theorem jget_ensure_getD {K V : Type} [DecidableEq K] (m : List (K × V)) (k : K) (e : V) :
    (jget (if jhas m k then m else jset m k e) k).getD e = (jget m k).getD e := by
  cases hg : jget m k with
  | none => simp [jhas, hg, jget_jset_self]
  | some v => simp [jhas, hg]

theorem setRoomBlock_eq (w : World) (room : String) (x y z id : Int) :
    setRoomBlock w room x y z id =
      (let C := (jget w room).getD []
       let cKey := blockChunkKey x z
       let M := (jget C cKey).getD []
       let bKey : BlockKey := (x, y, z)
       if id ≤ 0 then
         let M2 := jdel M bKey
         let C2 := if M2.length = 0 then jdel C cKey else jset C cKey M2
         if C2.length = 0 then jdel w room else jset w room C2
       else
         jset w room (jset C cKey (jset M bKey { x := x, y := y, z := z, id := id }))) := by
  have hsnd : (ensureRoomChunks w room).2 = (jget w room).getD [] := by
    simpa [ensureRoomChunks] using jget_ensure_getD w room []
  have hfst : (ensureRoomChunks w room).1 = (if jhas w room then w else jset w room []) := rfl
  simp only [setRoomBlock, hsnd, hfst, jget_ensure_getD, jdel_ensure, jset_ensure]

/-- Folding preserves an invariant of the accumulator. -/
theorem foldl_inv {α β : Type} (P : α → Prop) (f : α → β → α) (l : List β) (acc : α)
    (h0 : P acc) (hstep : ∀ a b, P a → P (f a b)) : P (l.foldl f acc) := by
  induction l generalizing acc with
  | nil => exact h0
  | cons b t ih => exact ih (f acc b) (hstep acc b h0)

/-- Every block record sits in the chunk named by its own coordinates.  This
holds for stores built by `setRoomBlock` alone; `hydrateWorldState` keys
chunks by the string found in the document, so it does not preserve it. -/
def Placed (w : World) : Prop :=
  ∀ re ∈ w, ∀ ce ∈ re.2, ∀ be ∈ ce.2, ce.1 = blockChunkKey be.2.x be.2.z

theorem placed_nil : Placed [] := by
  simp [Placed]

theorem worldWF_setRoomBlock (w : World) (room : String) (x y z id : Int)
    (h : WorldWF w) : WorldWF (setRoomBlock w room x y z id) := by
  rw [setRoomBlock_eq]
  obtain ⟨hwnd, hall⟩ := h
  have hroom : NodupKeys ((jget w room).getD []) ∧
      ∀ ce ∈ (jget w room).getD [], ChunkWF ce.2 := by
    cases hg : jget w room with
    | none => simp [hg, NodupKeys]
    | some C0 =>
      have hr := hall (room, C0) (mem_of_jget w room C0 hg)
      exact ⟨by simpa [hg] using hr.2.1, by simpa [hg] using hr.2.2⟩
  set C := (jget w room).getD [] with hCdef
  set cKey := blockChunkKey x z with hcKey
  have hchunk : NodupKeys ((jget C cKey).getD []) ∧
      ∀ be ∈ (jget C cKey).getD [],
        be.1 = (be.2.x, be.2.y, be.2.z) ∧ 0 < be.2.id := by
    cases hg : jget C cKey with
    | none => simp [hg, NodupKeys]
    | some M0 =>
      have hm := hroom.2 (cKey, M0) (mem_of_jget C cKey M0 hg)
      exact ⟨by simpa [hg] using hm.2.1, by simpa [hg] using hm.2.2⟩
  set M := (jget C cKey).getD [] with hMdef
  by_cases hid : id ≤ 0
  · simp only [if_pos hid]
    by_cases hM2 : (jdel M (x, y, z)).length = 0
    · simp only [if_pos hM2]
      by_cases hC2 : (jdel C cKey).length = 0
      · simp only [if_pos hC2]
        exact ⟨nodupKeys_jdel w room hwnd,
          fun re hre => hall re (mem_jdel w room hre)⟩
      · simp only [if_neg hC2]
        refine ⟨nodupKeys_jset w room _ hwnd, ?_⟩
        intro re hre
        rcases mem_jset w room _ hre with h' | rfl
        · exact hall re h'
        · refine ⟨fun hnil => hC2 (by rw [List.length_eq_zero]; exact hnil),
            nodupKeys_jdel C cKey hroom.1,
            fun ce hce => hroom.2 ce (mem_jdel C cKey hce)⟩
    · simp only [if_neg hM2]
      have hne : (jset C cKey (jdel M (x, y, z))).length ≠ 0 := by
        intro hcon
        exact jset_ne_nil C cKey (jdel M (x, y, z)) (List.length_eq_zero.mp hcon)
      simp only [if_neg hne]
      refine ⟨nodupKeys_jset w room _ hwnd, ?_⟩
      intro re hre
      rcases mem_jset w room _ hre with h' | rfl
      · exact hall re h'
      · refine ⟨jset_ne_nil C cKey _, nodupKeys_jset C cKey _ hroom.1, ?_⟩
        intro ce hce
        rcases mem_jset C cKey _ hce with h' | rfl
        · exact hroom.2 ce h'
        · refine ⟨fun hnil => hM2 (by rw [List.length_eq_zero]; exact hnil),
            nodupKeys_jdel M _ hchunk.1,
            fun be hbe => hchunk.2 be (mem_jdel M _ hbe)⟩
  · simp only [if_neg hid]
    refine ⟨nodupKeys_jset w room _ hwnd, ?_⟩
    intro re hre
    rcases mem_jset w room _ hre with h' | rfl
    · exact hall re h'
    · refine ⟨jset_ne_nil C cKey _, nodupKeys_jset C cKey _ hroom.1, ?_⟩
      intro ce hce
      rcases mem_jset C cKey _ hce with h' | rfl
      · exact hroom.2 ce h'
      · refine ⟨jset_ne_nil M (x, y, z) _, nodupKeys_jset M (x, y, z) _ hchunk.1, ?_⟩
        intro be hbe
        rcases mem_jset M (x, y, z) _ hbe with h' | rfl
        · exact hchunk.2 be h'
        · exact ⟨rfl, by show (0 : Int) < id; omega⟩

theorem placed_setRoomBlock (w : World) (room : String) (x y z id : Int)
    (h : Placed w) : Placed (setRoomBlock w room x y z id) := by
  rw [setRoomBlock_eq]
  have hroom : ∀ ce ∈ (jget w room).getD [], ∀ be ∈ ce.2,
      ce.1 = blockChunkKey be.2.x be.2.z := by
    cases hg : jget w room with
    | none => simp [hg]
    | some C0 =>
      have hr := h (room, C0) (mem_of_jget w room C0 hg)
      simpa [hg] using hr
  set C := (jget w room).getD [] with hCdef
  set cKey := blockChunkKey x z with hcKey
  have hchunk : ∀ be ∈ (jget C cKey).getD [], cKey = blockChunkKey be.2.x be.2.z := by
    cases hg : jget C cKey with
    | none => simp [hg]
    | some M0 =>
      have hm := hroom (cKey, M0) (mem_of_jget C cKey M0 hg)
      simpa [hg] using hm
  set M := (jget C cKey).getD [] with hMdef
  by_cases hid : id ≤ 0
  · simp only [if_pos hid]
    by_cases hM2 : (jdel M (x, y, z)).length = 0
    · simp only [if_pos hM2]
      by_cases hC2 : (jdel C cKey).length = 0
      · simp only [if_pos hC2]
        exact fun re hre => h re (mem_jdel w room hre)
      · simp only [if_neg hC2]
        intro re hre
        rcases mem_jset w room _ hre with h' | rfl
        · exact h re h'
        · exact fun ce hce => hroom ce (mem_jdel C cKey hce)
    · simp only [if_neg hM2]
      have hne : (jset C cKey (jdel M (x, y, z))).length ≠ 0 := by
        intro hcon
        exact jset_ne_nil C cKey (jdel M (x, y, z)) (List.length_eq_zero.mp hcon)
      simp only [if_neg hne]
      intro re hre
      rcases mem_jset w room _ hre with h' | rfl
      · exact h re h'
      · intro ce hce
        rcases mem_jset C cKey _ hce with h' | rfl
        · exact hroom ce h'
        · exact fun be hbe => hchunk be (mem_jdel M _ hbe)
  · simp only [if_neg hid]
    intro re hre
    rcases mem_jset w room _ hre with h' | rfl
    · exact h re h'
    · intro ce hce
      rcases mem_jset C cKey _ hce with h' | rfl
      · exact hroom ce h'
      · intro be hbe
        rcases mem_jset M (x, y, z) _ hbe with h' | rfl
        · exact hchunk be h'
        · rfl

theorem hydrateBlockStep_keep (m : ChunkMap) (x y z id : Int) (hid : ¬ id ≤ 0) :
    hydrateBlockStep m { x := some x, y := some y, z := some z, id := some id } =
      jset m (x, y, z) { x := x, y := y, z := z, id := id } := by
  simp [hydrateBlockStep, hid]

/-- The invariant established by the inner block loop of hydration. -/
theorem hydrateBlocks_wf (blocks : List RawBlock) :
    NodupKeys (hydrateBlocks blocks) ∧
      ∀ be ∈ hydrateBlocks blocks,
        be.1 = (be.2.x, be.2.y, be.2.z) ∧ 0 < be.2.id := by
  refine foldl_inv
    (fun m : ChunkMap =>
      NodupKeys m ∧ ∀ be ∈ m, be.1 = (be.2.x, be.2.y, be.2.z) ∧ 0 < be.2.id)
    hydrateBlockStep blocks [] ⟨by simp [NodupKeys], by simp⟩ ?_
  rintro m b ⟨hnd, hall⟩
  cases hx : b.x with
  | none => simp only [hydrateBlockStep, hx]; exact ⟨hnd, hall⟩
  | some x =>
    cases hy : b.y with
    | none => simp only [hydrateBlockStep, hx, hy]; exact ⟨hnd, hall⟩
    | some y =>
      cases hz : b.z with
      | none => simp only [hydrateBlockStep, hx, hy, hz]; exact ⟨hnd, hall⟩
      | some z =>
        cases hb : b.id with
        | none => simp only [hydrateBlockStep, hx, hy, hz, hb]; exact ⟨hnd, hall⟩
        | some id =>
          simp only [hydrateBlockStep, hx, hy, hz, hb]
          by_cases hid : id ≤ 0
          · simp only [if_pos hid]; exact ⟨hnd, hall⟩
          · simp only [if_neg hid]
            refine ⟨nodupKeys_jset m (x, y, z) _ hnd, ?_⟩
            intro be hbe
            rcases mem_jset m (x, y, z) _ hbe with h' | rfl
            · exact hall be h'
            · exact ⟨rfl, by show (0 : Int) < id; omega⟩

theorem hydrateRoomData_wf (roomData : List (String × Option (List RawBlock))) :
    NodupKeys (hydrateRoomData roomData) ∧
      ∀ ce ∈ hydrateRoomData roomData, ChunkWF ce.2 := by
  refine foldl_inv (fun m : RoomMap => NodupKeys m ∧ ∀ ce ∈ m, ChunkWF ce.2)
    hydrateChunkStep roomData [] ⟨by simp [NodupKeys], by simp⟩ ?_
  rintro m ce ⟨hnd, hall⟩
  cases hc : ce.2 with
  | none => simp only [hydrateChunkStep, hc]; exact ⟨hnd, hall⟩
  | some blocks =>
    simp only [hydrateChunkStep, hc]
    by_cases hlen : (hydrateBlocks blocks).length > 0
    · simp only [if_pos hlen]
      refine ⟨nodupKeys_jset m ce.1 _ hnd, ?_⟩
      intro de hde
      rcases mem_jset m ce.1 _ hde with h' | rfl
      · exact hall de h'
      · obtain ⟨hbnd, hball⟩ := hydrateBlocks_wf blocks
        refine ⟨fun hnil => ?_, hbnd, hball⟩
        have h0 : hydrateBlocks blocks = [] := hnil
        simp [h0] at hlen
    · simp only [if_neg hlen]; exact ⟨hnd, hall⟩

theorem worldWF_hydrate (prev : World) (raw : RawDoc) :
    WorldWF (hydrateWorldState prev raw) := by
  cases raw with
  | nonObject => exact worldWF_nil
  | obj rooms =>
    cases rooms with
    | none => exact worldWF_nil
    | some rooms =>
      refine foldl_inv WorldWF hydrateRoomStep rooms [] worldWF_nil ?_
      rintro w re ⟨hnd, hall⟩
      cases hr : re.2 with
      | none => simp only [hydrateRoomStep, hr]; exact ⟨hnd, hall⟩
      | some roomData =>
        simp only [hydrateRoomStep, hr]
        by_cases hlen : (hydrateRoomData roomData).length > 0
        · simp only [if_pos hlen]
          refine ⟨nodupKeys_jset w re.1 _ hnd, ?_⟩
          intro se hse
          rcases mem_jset w re.1 _ hse with h' | rfl
          · exact hall se h'
          · obtain ⟨hrnd, hrall⟩ := hydrateRoomData_wf roomData
            refine ⟨fun hnil => ?_, hrnd, hrall⟩
            have h0 : hydrateRoomData roomData = [] := hnil
            simp [h0] at hlen
        · simp only [if_neg hlen]; exact ⟨hnd, hall⟩

/-- Reading one coordinate is a three-level `jget` chain (the `getD []`
defaults make the absent-room and absent-chunk cases uniform). -/
theorem getBlock_chain (w : World) (r : String) (x y z : Int) :
    getBlock w r x y z =
      (jget ((jget ((jget w r).getD []) (blockChunkKey x z)).getD []) (x, y, z)).map Block.id := by
  cases hg : jget w r with
  | none => simp [getBlock, hg, jget]
  | some chunks =>
    cases hc : jget chunks (blockChunkKey x z) with
    | none => simp [getBlock, hg, hc, jget]
    | some cMap => simp [getBlock, hg, hc]

/-- If deleting key `k'` empties the map, no other key was present. -/
theorem jget_of_jdel_nil {K V : Type} [DecidableEq K] (m : List (K × V)) {k' k : K}
    (h : jdel m k' = []) (hne : k' ≠ k) : jget m k = none := by
  rcases jdel_eq_nil m k' h with rfl | ⟨v, rfl⟩
  · rfl
  · simp [jget, hne]

/-- Effect of one `setRoomBlock` call on one coordinate read: the written
coordinate now holds `id` (or nothing, when `id <= 0`); every other
coordinate of every room is untouched. -/
theorem getBlock_setRoomBlock (w : World) (r' : String) (x' y' z' id' : Int)
    (r : String) (x y z : Int) (hW : WorldWF w) :
    getBlock (setRoomBlock w r' x' y' z' id') r x y z =
      if r' = r ∧ x' = x ∧ y' = y ∧ z' = z then
        (if 0 < id' then some id' else none)
      else getBlock w r x y z := by
  obtain ⟨hwnd, hall⟩ := hW
  by_cases hr : r' = r
  · subst hr
    have hroom : NodupKeys ((jget w r').getD []) ∧
        ∀ ce ∈ (jget w r').getD [], ChunkWF ce.2 := by
      cases hg : jget w r' with
      | none => simp [NodupKeys]
      | some C0 =>
        have hx := hall (r', C0) (mem_of_jget w r' C0 hg)
        exact ⟨by simpa using hx.2.1, by simpa using hx.2.2⟩
    have hMnd : NodupKeys ((jget ((jget w r').getD []) (blockChunkKey x' z')).getD []) := by
      cases hg : jget ((jget w r').getD []) (blockChunkKey x' z') with
      | none => simp [NodupKeys]
      | some M0 =>
        simpa using ((hroom.2 (blockChunkKey x' z', M0)
          (mem_of_jget _ _ M0 hg)).2.1)
    rw [setRoomBlock_eq]
    by_cases hxyz : x' = x ∧ y' = y ∧ z' = z
    · have hcond : r' = r' ∧ x' = x ∧ y' = y ∧ z' = z :=
        ⟨rfl, hxyz.1, hxyz.2.1, hxyz.2.2⟩
      rw [if_pos hcond]
      obtain ⟨hx, hy, hz⟩ := hxyz
      rw [← hx, ← hy, ← hz]
      by_cases hid : id' ≤ 0
      · rw [if_neg (show ¬ (0 : Int) < id' by omega)]
        simp only [if_pos hid]
        by_cases hM2 :
            (jdel ((jget ((jget w r').getD []) (blockChunkKey x' z')).getD []) (x', y', z')).length = 0
        · simp only [if_pos hM2]
          by_cases hC2 : (jdel ((jget w r').getD []) (blockChunkKey x' z')).length = 0
          · simp only [if_pos hC2]
            rw [getBlock_chain, jget_jdel_self w r' hwnd]
            simp [jget]
          · simp only [if_neg hC2]
            rw [getBlock_chain, jget_jset_self, Option.getD_some,
              jget_jdel_self _ _ hroom.1]
            simp [jget]
        · simp only [if_neg hM2]
          have hne : ¬ (jset ((jget w r').getD []) (blockChunkKey x' z')
              (jdel ((jget ((jget w r').getD []) (blockChunkKey x' z')).getD []) (x', y', z'))).length = 0 := by
            intro hcon
            exact jset_ne_nil _ _ _ (List.length_eq_zero.mp hcon)
          simp only [if_neg hne]
          rw [getBlock_chain, jget_jset_self, Option.getD_some, jget_jset_self,
            Option.getD_some, jget_jdel_self _ _ hMnd]
          rfl
      · rw [if_pos (show (0 : Int) < id' by omega)]
        simp only [if_neg hid]
        rw [getBlock_chain, jget_jset_self, Option.getD_some, jget_jset_self,
          Option.getD_some, jget_jset_self]
        rfl
    · have hcond : ¬ (r' = r' ∧ x' = x ∧ y' = y ∧ z' = z) := fun h => hxyz h.2
      rw [if_neg hcond]
      have hbne : ((x', y', z') : BlockKey) ≠ (x, y, z) := by
        intro hcon
        exact hxyz (by simpa [Prod.ext_iff] using hcon)
      by_cases hid : id' ≤ 0
      · simp only [if_pos hid]
        by_cases hM2 :
            (jdel ((jget ((jget w r').getD []) (blockChunkKey x' z')).getD []) (x', y', z')).length = 0
        · simp only [if_pos hM2]
          have hMnil :
              jdel ((jget ((jget w r').getD []) (blockChunkKey x' z')).getD []) (x', y', z') = [] :=
            List.length_eq_zero.mp hM2
          by_cases hC2 : (jdel ((jget w r').getD []) (blockChunkKey x' z')).length = 0
          · simp only [if_pos hC2]
            have hCnil : jdel ((jget w r').getD []) (blockChunkKey x' z') = [] :=
              List.length_eq_zero.mp hC2
            rw [getBlock_chain, jget_jdel_self w r' hwnd]
            rw [getBlock_chain w]
            by_cases hkey : blockChunkKey x' z' = blockChunkKey x z
            · rw [← hkey, jget_of_jdel_nil _ hMnil hbne]
              simp [jget]
            · rw [jget_of_jdel_nil _ hCnil hkey]
              simp [jget]
          · simp only [if_neg hC2]
            rw [getBlock_chain, jget_jset_self, Option.getD_some]
            rw [getBlock_chain w]
            by_cases hkey : blockChunkKey x' z' = blockChunkKey x z
            · rw [← hkey, jget_jdel_self _ _ hroom.1,
                jget_of_jdel_nil _ hMnil hbne]
              simp [jget]
            · rw [jget_jdel_ne _ hkey]
        · simp only [if_neg hM2]
          have hne : ¬ (jset ((jget w r').getD []) (blockChunkKey x' z')
              (jdel ((jget ((jget w r').getD []) (blockChunkKey x' z')).getD []) (x', y', z'))).length = 0 := by
            intro hcon
            exact jset_ne_nil _ _ _ (List.length_eq_zero.mp hcon)
          simp only [if_neg hne]
          rw [getBlock_chain, jget_jset_self, Option.getD_some]
          rw [getBlock_chain w]
          by_cases hkey : blockChunkKey x' z' = blockChunkKey x z
          · rw [← hkey, jget_jset_self, Option.getD_some, jget_jdel_ne _ hbne]
          · rw [jget_jset_ne _ _ hkey]
      · simp only [if_neg hid]
        rw [getBlock_chain, jget_jset_self, Option.getD_some]
        rw [getBlock_chain w]
        by_cases hkey : blockChunkKey x' z' = blockChunkKey x z
        · rw [← hkey, jget_jset_self, Option.getD_some, jget_jset_ne _ _ hbne]
        · rw [jget_jset_ne _ _ hkey]
  · have hcond : ¬ (r' = r ∧ x' = x ∧ y' = y ∧ z' = z) := fun h => hr h.1
    rw [if_neg hcond]
    have hget : jget (setRoomBlock w r' x' y' z' id') r = jget w r := by
      rw [setRoomBlock_eq]
      by_cases hid : id' ≤ 0
      · simp only [if_pos hid]
        by_cases hM2 :
            (jdel ((jget ((jget w r').getD []) (blockChunkKey x' z')).getD []) (x', y', z')).length = 0
        · simp only [if_pos hM2]
          by_cases hC2 : (jdel ((jget w r').getD []) (blockChunkKey x' z')).length = 0
          · simp only [if_pos hC2]
            exact jget_jdel_ne w hr
          · simp only [if_neg hC2]
            exact jget_jset_ne w _ hr
        · simp only [if_neg hM2]
          by_cases hC2 : (jset ((jget w r').getD []) (blockChunkKey x' z')
              (jdel ((jget ((jget w r').getD []) (blockChunkKey x' z')).getD []) (x', y', z'))).length = 0
          · simp only [if_pos hC2]
            exact jget_jdel_ne w hr
          · simp only [if_neg hC2]
            exact jget_jset_ne w _ hr
      · simp only [if_neg hid]
        exact jget_jset_ne w _ hr
    rw [getBlock_chain, getBlock_chain w, hget]

/-- Running a call sequence folds the per-call effect over the read of the
starting store. -/
theorem getBlock_foldl (calls : List SetCall) (w : World) (hW : WorldWF w)
    (r : String) (x y z : Int) :
    getBlock (calls.foldl (fun acc c => setRoomBlock acc c.room c.x c.y c.z c.id) w) r x y z =
      calls.foldl (fun acc c =>
        if c.room = r ∧ c.x = x ∧ c.y = y ∧ c.z = z then
          (if 0 < c.id then some c.id else none)
        else acc) (getBlock w r x y z) := by
  induction calls generalizing w with
  | nil => rfl
  | cons c t ih =>
    simp only [List.foldl_cons]
    rw [ih (setRoomBlock w c.room c.x c.y c.z c.id)
      (worldWF_setRoomBlock w c.room c.x c.y c.z c.id hW)]
    rw [getBlock_setRoomBlock w c.room c.x c.y c.z c.id r x y z hW]

/-! ### Round trip: hydrating a serialized store reproduces it exactly -/

theorem jget_append_single {K V : Type} [DecidableEq K] (m : List (K × V))
    (k2 : K) (v : V) (k : K) (h : jget m k = none) :
    jget (m ++ [(k2, v)]) k = if k2 = k then some v else none := by
  induction m with
  | nil => simp [jget]
  | cons a rest ih =>
    obtain ⟨k₁, v₁⟩ := a
    by_cases hk : k₁ = k
    · simp [jget, hk] at h
    · simp [jget, hk] at h ⊢
      exact ih h

theorem hydrateBlocks_gen (cMap : ChunkMap) (acc : ChunkMap)
    (hnd : NodupKeys cMap)
    (hcons : ∀ be ∈ cMap, be.1 = (be.2.x, be.2.y, be.2.z) ∧ 0 < be.2.id)
    (hdis : ∀ be ∈ cMap, jget acc be.1 = none) :
    List.foldl hydrateBlockStep acc (cMap.map fun be => rawOfBlock be.2) =
      acc ++ cMap := by
  induction cMap generalizing acc with
  | nil => simp
  | cons be t ih =>
    obtain ⟨bk, b⟩ := be
    obtain ⟨hbk, hbid⟩ := hcons (bk, b) (List.mem_cons_self _ _)
    simp only at hbk
    have hbid' : (0 : Int) < b.id := hbid
    have hnd' : (t.map Prod.fst).Nodup := (List.nodup_cons.mp hnd).2
    have hbknotin : bk ∉ t.map Prod.fst := (List.nodup_cons.mp hnd).1
    simp only [List.map_cons, List.foldl_cons]
    have hstep : hydrateBlockStep acc (rawOfBlock b) = acc ++ [(bk, b)] := by
      rw [show rawOfBlock b =
          { x := some b.x, y := some b.y, z := some b.z, id := some b.id } from rfl]
      rw [hydrateBlockStep_keep acc b.x b.y b.z b.id (by omega)]
      have hb : ({ x := b.x, y := b.y, z := b.z, id := b.id } : Block) = b := rfl
      rw [hb, ← hbk, jset_append acc bk b (hdis (bk, b) (List.mem_cons_self _ _))]
    rw [hstep]
    rw [ih (acc ++ [(bk, b)]) hnd'
      (fun ce hce => hcons ce (List.mem_cons_of_mem _ hce)) ?_]
    · simp
    · intro ce hce
      rw [jget_append_single acc bk b ce.1 (hdis ce (List.mem_cons_of_mem _ hce))]
      have : bk ≠ ce.1 := fun hcon =>
        hbknotin (hcon ▸ List.mem_map.mpr ⟨ce, hce, rfl⟩)
      simp [this]

theorem hydrateBlocks_eq (cMap : ChunkMap)
    (hnd : NodupKeys cMap)
    (hcons : ∀ be ∈ cMap, be.1 = (be.2.x, be.2.y, be.2.z) ∧ 0 < be.2.id) :
    hydrateBlocks (cMap.map fun be => rawOfBlock be.2) = cMap := by
  rw [hydrateBlocks, hydrateBlocks_gen cMap [] hnd hcons (fun be hbe => rfl)]
  simp

theorem hydrateRoomData_gen (chunks : RoomMap) (acc : RoomMap)
    (hnd : NodupKeys chunks)
    (hwf : ∀ ce ∈ chunks, ChunkWF ce.2)
    (hdis : ∀ ce ∈ chunks, jget acc ce.1 = none) :
    List.foldl hydrateChunkStep acc
      (chunks.map fun ce => (ce.1, some (ce.2.map fun be => rawOfBlock be.2))) =
      acc ++ chunks := by
  induction chunks generalizing acc with
  | nil => simp
  | cons ce t ih =>
    obtain ⟨ck, cMap⟩ := ce
    obtain ⟨hcne, hcnd, hccons⟩ := hwf (ck, cMap) (List.mem_cons_self _ _)
    have hnd' : (t.map Prod.fst).Nodup := (List.nodup_cons.mp hnd).2
    have hcknotin : ck ∉ t.map Prod.fst := (List.nodup_cons.mp hnd).1
    simp only [List.map_cons, List.foldl_cons]
    have hblocks : hydrateBlocks (cMap.map fun be => rawOfBlock be.2) = cMap :=
      hydrateBlocks_eq cMap hcnd hccons
    have hstep : hydrateChunkStep acc (ck, some (cMap.map fun be => rawOfBlock be.2)) =
        acc ++ [(ck, cMap)] := by
      show (let blockMap := hydrateBlocks (cMap.map fun be => rawOfBlock be.2)
            if blockMap.length > 0 then jset acc ck blockMap else acc) =
          acc ++ [(ck, cMap)]
      simp only [hblocks]
      rw [if_pos (List.length_pos.mpr hcne)]
      exact jset_append acc ck cMap (hdis (ck, cMap) (List.mem_cons_self _ _))
    rw [hstep]
    rw [ih (acc ++ [(ck, cMap)]) hnd'
      (fun de hde => hwf de (List.mem_cons_of_mem _ hde)) ?_]
    · simp
    · intro de hde
      rw [jget_append_single acc ck cMap de.1 (hdis de (List.mem_cons_of_mem _ hde))]
      have : ck ≠ de.1 := fun hcon =>
        hcknotin (hcon ▸ List.mem_map.mpr ⟨de, hde, rfl⟩)
      simp [this]

theorem hydrateRoomData_eq (chunks : RoomMap)
    (hnd : NodupKeys chunks)
    (hwf : ∀ ce ∈ chunks, ChunkWF ce.2) :
    hydrateRoomData (chunks.map fun ce => (ce.1, some (ce.2.map fun be => rawOfBlock be.2))) =
      chunks := by
  rw [hydrateRoomData, hydrateRoomData_gen chunks [] hnd hwf (fun ce hce => rfl)]
  simp

theorem hydrateRooms_gen (w : World) (acc : World)
    (hnd : NodupKeys w)
    (hwf : ∀ re ∈ w, RoomWF re.2)
    (hdis : ∀ re ∈ w, jget acc re.1 = none) :
    List.foldl hydrateRoomStep acc
      (w.map fun re => (re.1, some (re.2.map fun ce =>
        (ce.1, some (ce.2.map fun be => rawOfBlock be.2))))) =
      acc ++ w := by
  induction w generalizing acc with
  | nil => simp
  | cons re t ih =>
    obtain ⟨rk, chunks⟩ := re
    obtain ⟨hrne, hrnd, hrwf⟩ := hwf (rk, chunks) (List.mem_cons_self _ _)
    have hnd' : (t.map Prod.fst).Nodup := (List.nodup_cons.mp hnd).2
    have hrknotin : rk ∉ t.map Prod.fst := (List.nodup_cons.mp hnd).1
    simp only [List.map_cons, List.foldl_cons]
    have hchunks : hydrateRoomData (chunks.map fun ce =>
        (ce.1, some (ce.2.map fun be => rawOfBlock be.2))) = chunks :=
      hydrateRoomData_eq chunks hrnd hrwf
    have hstep : hydrateRoomStep acc (rk, some (chunks.map fun ce =>
        (ce.1, some (ce.2.map fun be => rawOfBlock be.2)))) =
        acc ++ [(rk, chunks)] := by
      show (let cs := hydrateRoomData (chunks.map fun ce =>
              (ce.1, some (ce.2.map fun be => rawOfBlock be.2)))
            if cs.length > 0 then jset acc rk cs else acc) =
          acc ++ [(rk, chunks)]
      simp only [hchunks]
      rw [if_pos (List.length_pos.mpr hrne)]
      exact jset_append acc rk chunks (hdis (rk, chunks) (List.mem_cons_self _ _))
    rw [hstep]
    rw [ih (acc ++ [(rk, chunks)]) hnd'
      (fun de hde => hwf de (List.mem_cons_of_mem _ hde)) ?_]
    · simp
    · intro de hde
      rw [jget_append_single acc rk chunks de.1 (hdis de (List.mem_cons_of_mem _ hde))]
      have : rk ≠ de.1 := fun hcon =>
        hrknotin (hcon ▸ List.mem_map.mpr ⟨de, hde, rfl⟩)
      simp [this]

/-- Hydrating the serialized image of a well-formed store reproduces the store
exactly (not just up to reordering). -/
theorem hydrate_serialize (w : World) (prev : World) (hW : WorldWF w) :
    hydrateWorldState prev (serializeWorldState w) = w := by
  obtain ⟨hnd, hwf⟩ := hW
  show List.foldl hydrateRoomStep []
      (w.map fun re => (re.1, some (re.2.map fun ce =>
        (ce.1, some (ce.2.map fun be => rawOfBlock be.2))))) = w
  rw [hydrateRooms_gen w [] hnd hwf (fun re hre => rfl)]
  simp

theorem worldWF_runStoreOps (ops : List StoreOp) : WorldWF (runStoreOps ops) := by
  refine foldl_inv WorldWF applyStoreOp ops [] worldWF_nil ?_
  intro w op hw
  cases op with
  | set room x y z id => exact worldWF_setRoomBlock w room x y z id hw
  | hyd raw => exact worldWF_hydrate w raw

theorem worldWF_runSetCalls (calls : List SetCall) : WorldWF (runSetCalls calls) :=
  foldl_inv WorldWF _ calls [] worldWF_nil
    (fun w c hw => worldWF_setRoomBlock w c.room c.x c.y c.z c.id hw)

theorem placed_runSetCalls (calls : List SetCall) : Placed (runSetCalls calls) :=
  foldl_inv Placed _ calls [] placed_nil
    (fun w c hw => placed_setRoomBlock w c.room c.x c.y c.z c.id hw)

theorem isEmpty_false_of_ne_nil {α : Type} {l : List α} (h : l ≠ []) :
    l.isEmpty = false := by
  cases l with
  | nil => exact absurd rfl h
  | cons a t => rfl

theorem storeInv_of_worldWF (w : World) (h : WorldWF w) : storeInv w = true := by
  obtain ⟨-, h⟩ := h
  rw [storeInv, List.all_eq_true]
  intro re hre
  obtain ⟨hne, -, hch⟩ := h re hre
  rw [Bool.and_eq_true, List.all_eq_true]
  refine ⟨by simp [isEmpty_false_of_ne_nil hne], ?_⟩
  intro ce hce
  obtain ⟨hcne, -, hbe⟩ := hch ce hce
  rw [Bool.and_eq_true, List.all_eq_true]
  refine ⟨by simp [isEmpty_false_of_ne_nil hcne], ?_⟩
  intro be hb
  simpa using (hbe be hb).2

/-! ## Peer rooms and broadcast (src/server.js lines 11-12, 34-56)

`rooms` is `Map room -> Set socket`; sockets are embedded as `Nat` and a
JavaScript `Set` as an insertion-ordered duplicate-free list. -/

abbrev Rooms := List (String × List Nat)

/-- addToRoom (src/server.js lines 34-37): ensure the membership set exists,
then `Set.prototype.add` (append when absent). -/
def addToRoom (rs : Rooms) (ws : Nat) (room : String) : Rooms :=
  let rs1 := if jhas rs room then rs else jset rs room []
  let set := (jget rs1 room).getD []
  jset rs1 room (if ws ∈ set then set else set ++ [ws])

/-- removeFromRoom (src/server.js lines 39-44): `Set.prototype.delete`
removes the single occurrence (a JavaScript `Set` never holds duplicates);
when the set becomes empty the room entry is deleted. -/
def removeFromRoom (rs : Rooms) (ws : Nat) (room : String) : Rooms :=
  match jget rs room with
  | none => rs
  | some set =>
    let set2 := set.erase ws
    if set2.length = 0 then jdel rs room else jset rs room set2

/-- broadcastToRoom (src/server.js lines 46-56): the list of sockets the
encoded payload is sent to.  `ready c` embeds `c.readyState === 1`; the
payload itself never influences delivery, so it is omitted; `except` embeds
the `except` parameter (`none` is the JavaScript default `null`). -/
def broadcastToRoom (rs : Rooms) (ready : Nat → Bool) (room : String)
    (except : Option Nat) : List Nat :=
  match jget rs room with
  | none => []
  | some set => set.filter (fun c => decide (some c ≠ except) && ready c)

/-- One membership mutation, as performed by the JOIN handler (remove from the
old room, add to the new one), the connection handler (add to GLOBAL) and the
close handler (remove from the current room). -/
inductive RoomOp where
  | add (ws : Nat) (room : String)
  | remove (ws : Nat) (room : String)
deriving Repr

def applyRoomOp (rs : Rooms) : RoomOp → Rooms
  | .add ws room => addToRoom rs ws room
  | .remove ws room => removeFromRoom rs ws room

/-- The membership map after a sequence of mutations applied to the initially
empty map. -/
def runRoomOps (ops : List RoomOp) : Rooms :=
  ops.foldl applyRoomOp []

theorem addToRoom_eq (rs : Rooms) (ws : Nat) (room : String) :
    addToRoom rs ws room =
      jset rs room
        (if ws ∈ (jget rs room).getD [] then (jget rs room).getD []
         else (jget rs room).getD [] ++ [ws]) := by
  cases hg : jget rs room with
  | none => simp [addToRoom, jhas, hg, jget_jset_self, jset_jset_same]
  | some set => simp [addToRoom, jhas, hg]

theorem roomsNonempty_addToRoom (rs : Rooms) (ws : Nat) (room : String)
    (h : ∀ e ∈ rs, e.2 ≠ []) : ∀ e ∈ addToRoom rs ws room, e.2 ≠ [] := by
  rw [addToRoom_eq]
  intro e he
  rcases mem_jset rs room _ he with h' | rfl
  · exact h e h'
  · by_cases hmem : ws ∈ (jget rs room).getD []
    · simpa [hmem] using List.ne_nil_of_mem hmem
    · simp [hmem]

theorem roomsNonempty_removeFromRoom (rs : Rooms) (ws : Nat) (room : String)
    (h : ∀ e ∈ rs, e.2 ≠ []) : ∀ e ∈ removeFromRoom rs ws room, e.2 ≠ [] := by
  unfold removeFromRoom
  cases hg : jget rs room with
  | none => exact h
  | some set =>
    by_cases hlen : (set.erase ws).length = 0
    · simp only [if_pos hlen]
      exact fun e he => h e (mem_jdel rs room he)
    · simp only [if_neg hlen]
      intro e he
      rcases mem_jset rs room _ he with h' | rfl
      · exact h e h'
      · exact fun hnil => hlen (by simpa using congrArg List.length hnil)

theorem roomsNonempty_runRoomOps (ops : List RoomOp) :
    ∀ e ∈ runRoomOps ops, e.2 ≠ [] := by
  refine foldl_inv (fun rs : Rooms => ∀ e ∈ rs, e.2 ≠ []) applyRoomOp ops [] (by simp) ?_
  intro rs op hrs
  cases op with
  | add ws room => exact roomsNonempty_addToRoom rs ws room hrs
  | remove ws room => exact roomsNonempty_removeFromRoom rs ws room hrs

/-! ## Player state (src/server.js lines 155-173 and 262-305; variant
src/unnamed/part_000 lines 38-56 and 135-165) -/

structure PlayerState where
  x : Int
  y : Int
  z : Int
  yaw : Int
  pitch : Int
  moving : Bool
  crouching : Bool
  punchAnim : Int
  placeAnim : Int
  heldBlock : Int
deriving DecidableEq, Repr

structure Peer where
  id : String
  name : String
  skin : String
  room : String
  state : PlayerState
deriving DecidableEq, Repr

/-- An incoming PLAYER_STATE message after the JavaScript coercions: a numeric
field is `none` when `Number(msg.f)` is non-finite (also when the field is
absent, since `Number(undefined)` is `NaN`); `moving` and `crouching` carry
the `!!` coercions. -/
structure PSMsg where
  x : Option Int
  y : Option Int
  z : Option Int
  yaw : Option Int
  pitch : Option Int
  moving : Bool
  crouching : Bool
  punchAnim : Option Int
  placeAnim : Option Int
  heldBlock : Option Int
deriving DecidableEq, Repr

/-- The outbound PLAYER_STATE broadcast payload (src/server.js lines
289-304). -/
structure PSBroadcast where
  id : String
  name : String
  skin : String
  x : Int
  y : Int
  z : Int
  yaw : Int
  pitch : Int
  moving : Bool
  crouching : Bool
  punchAnim : Int
  placeAnim : Int
  heldBlock : Int
deriving DecidableEq, Repr

/-- PLAYER_STATE handler of src/server.js (lines 262-305): when any of x, y,
z, yaw, pitch is non-finite the message is dropped (state unchanged, no
broadcast); otherwise the state is replaced wholesale — `punchAnim` and
`placeAnim` default to 0 and `heldBlock` defaults to 2 when non-finite — and
the full new state is broadcast with the identity fields. -/
def handlePlayerState (peer : Peer) (m : PSMsg) : Peer × Option PSBroadcast :=
  match m.x, m.y, m.z, m.yaw, m.pitch with
  | some x, some y, some z, some yaw, some pitch =>
    let st : PlayerState :=
      { x := x, y := y, z := z, yaw := yaw, pitch := pitch,
        moving := m.moving, crouching := m.crouching,
        punchAnim := m.punchAnim.getD 0,
        placeAnim := m.placeAnim.getD 0,
        heldBlock := m.heldBlock.getD 2 }
    ({ peer with state := st },
      some { id := peer.id, name := peer.name, skin := peer.skin,
             x := x, y := y, z := z, yaw := yaw, pitch := pitch,
             moving := m.moving, crouching := m.crouching,
             punchAnim := st.punchAnim, placeAnim := st.placeAnim,
             heldBlock := st.heldBlock })
  | _, _, _, _, _ => (peer, none)

namespace Part000

/-- PLAYER_STATE handler of the variant src/unnamed/part_000 (lines 135-165):
same finiteness validation, but `punchAnim` and `placeAnim` are clamped to
[0, 1] (`Math.max(0, Math.min(1, v))`, here on the integer embedding) and
`heldBlock` defaults to 0, not 2; the broadcast spreads the stored state. -/
def handlePlayerState (peer : Peer) (m : PSMsg) : Peer × Option PSBroadcast :=
  match m.x, m.y, m.z, m.yaw, m.pitch with
  | some x, some y, some z, some yaw, some pitch =>
    let st : PlayerState :=
      { x := x, y := y, z := z, yaw := yaw, pitch := pitch,
        moving := m.moving, crouching := m.crouching,
        punchAnim := match m.punchAnim with
          | some p => max 0 (min 1 p)
          | none => 0,
        placeAnim := match m.placeAnim with
          | some p => max 0 (min 1 p)
          | none => 0,
        heldBlock := m.heldBlock.getD 0 }
    ({ peer with state := st },
      some { id := peer.id, name := peer.name, skin := peer.skin,
             x := st.x, y := st.y, z := st.z, yaw := st.yaw, pitch := st.pitch,
             moving := st.moving, crouching := st.crouching,
             punchAnim := st.punchAnim, placeAnim := st.placeAnim,
             heldBlock := st.heldBlock })
  | _, _, _, _, _ => (peer, none)

end Part000

/-! ## Room keys (src/server.js lines 22-24) -/

/-- A raw JavaScript value arriving in the `room` field of a JOIN message,
restricted to the JSON value shapes (plus `undefined` for an absent field). -/
inductive RoomVal where
  | str (s : String)
  | num (n : Int)
  | boolv (b : Bool)
  | nullv
  | undef
deriving DecidableEq, Repr

/-- JavaScript truthiness of a `RoomVal` (numbers are embedded as integers, so
`NaN` does not arise; `0` and the empty string are falsy). -/
def jsTruthy : RoomVal → Bool
  | .str s => s != ""
  | .num n => n != 0
  | .boolv b => b
  | .nullv => false
  | .undef => false

/-- The JavaScript `String(...)` coercion of a `RoomVal`. -/
def jsToString : RoomVal → String
  | .str s => s
  | .num n => toString n
  | .boolv b => if b then "true" else "false"
  | .nullv => "null"
  | .undef => "undefined"

/-- JavaScript whitespace for `trim` (ASCII fragment: space, tab, newline,
carriage return). -/
def jsIsWS (c : Char) : Bool :=
  c == ' ' || c == '\t' || c == '\n' || c == '\r'

/-- JavaScript `String.prototype.trim`, modeled over ASCII strings: drop
whitespace from both ends. -/
def jsTrim (s : String) : String :=
  String.mk (((s.data.dropWhile jsIsWS).reverse.dropWhile jsIsWS).reverse)

/-- JavaScript `String.prototype.toUpperCase`, modeled over ASCII strings. -/
def jsToUpper (s : String) : String :=
  String.mk (s.data.map Char.toUpper)

/-- JavaScript `String.prototype.slice(0, 32)`: the first 32 characters. -/
def jsSlice32 (s : String) : String :=
  String.mk (s.data.take 32)

/-- normalizeRoom (src/server.js lines 22-24):
`String(room || "GLOBAL").trim().toUpperCase().slice(0, 32) || "GLOBAL"`. -/
def normalizeRoom (room : RoomVal) : String :=
  let s := jsToString (if jsTruthy room then room else .str "GLOBAL")
  let t := jsSlice32 (jsToUpper (jsTrim s))
  if t = "" then "GLOBAL" else t

/-! ## Characterization of getChunkBlocks on setBlock-reachable stores -/

/-- The chunk listing is a two-level `jget` chain followed by taking the
stored records. -/
theorem getChunkBlocks_chain (w : World) (room : String) (cx cz : Int) :
    getChunkBlocks w room cx cz =
      ((jget ((jget w room).getD []) (coordKey cx cz)).getD []).map Prod.snd := by
  cases hg : jget w room with
  | none => simp [getChunkBlocks, hg, jget]
  | some chunks =>
    cases hc : jget chunks (coordKey cx cz) with
    | none => simp [getChunkBlocks, hg, hc]
    | some cMap => simp [getChunkBlocks, hg, hc]

/-- On a well-formed, placement-consistent store, the chunk listing returns
exactly the live blocks of that chunk. -/
theorem mem_getChunkBlocks_iff (w : World) (hW : WorldWF w) (hP : Placed w)
    (room : String) (cx cz : Int) (b : Block) :
    b ∈ getChunkBlocks w room cx cz ↔
      (getBlock w room b.x b.y b.z = some b.id ∧
        blockChunkKey b.x b.z = coordKey cx cz) := by
  constructor
  · intro hb
    rw [getChunkBlocks_chain] at hb
    cases hg : jget w room with
    | none => rw [hg] at hb; simp [jget] at hb
    | some chunks =>
      rw [hg] at hb
      simp only [Option.getD_some] at hb
      cases hc : jget chunks (coordKey cx cz) with
      | none => rw [hc] at hb; simp at hb
      | some cMap =>
        rw [hc] at hb
        simp only [Option.getD_some] at hb
        obtain ⟨a, ha, hab⟩ := List.mem_map.mp hb
        have hroomwf := hW.2 (room, chunks) (mem_of_jget w room chunks hg)
        have hchunkwf := hroomwf.2.2 (coordKey cx cz, cMap)
          (mem_of_jget chunks _ cMap hc)
        have hplaced : coordKey cx cz = blockChunkKey a.2.x a.2.z :=
          hP (room, chunks) (mem_of_jget w room chunks hg)
            (coordKey cx cz, cMap) (mem_of_jget chunks _ cMap hc) a ha
        have hkc : a.1 = (a.2.x, a.2.y, a.2.z) := (hchunkwf.2.2 a ha).1
        subst hab
        refine ⟨?_, hplaced.symm⟩
        rw [getBlock_chain, hg]
        simp only [Option.getD_some]
        rw [show blockChunkKey a.2.x a.2.z = coordKey cx cz from hplaced.symm, hc]
        simp only [Option.getD_some]
        rw [show ((a.2.x, a.2.y, a.2.z) : BlockKey) = a.1 from hkc.symm,
          jget_of_mem cMap a.1 a.2 hchunkwf.2.1 ha]
        rfl
  · rintro ⟨hgb, hkey⟩
    rw [getBlock_chain] at hgb
    cases hg : jget w room with
    | none => rw [hg] at hgb; simp [jget] at hgb
    | some chunks =>
      rw [hg] at hgb
      simp only [Option.getD_some] at hgb
      cases hc : jget chunks (blockChunkKey b.x b.z) with
      | none => rw [hc] at hgb; simp [jget] at hgb
      | some cMap =>
        rw [hc] at hgb
        simp only [Option.getD_some] at hgb
        cases hm : jget cMap (b.x, b.y, b.z) with
        | none => rw [hm] at hgb; simp at hgb
        | some b2 =>
          rw [hm] at hgb
          simp only [Option.map_some'] at hgb
          have hgb2 : b2.id = b.id := by
            injection hgb
          have hroomwf := hW.2 (room, chunks) (mem_of_jget w room chunks hg)
          have hchunkwf := hroomwf.2.2 (blockChunkKey b.x b.z, cMap)
            (mem_of_jget chunks _ cMap hc)
          have hmem := mem_of_jget cMap (b.x, b.y, b.z) b2 hm
          have hkc : ((b.x, b.y, b.z) : BlockKey) = (b2.x, b2.y, b2.z) :=
            (hchunkwf.2.2 ((b.x, b.y, b.z), b2) hmem).1
          have hb2 : b2 = b := by
            obtain ⟨b2x, b2y, b2z, b2id⟩ := b2
            obtain ⟨bx1, by1, bz1, bid1⟩ := b
            simp_all
          rw [getChunkBlocks_chain, hg]
          simp only [Option.getD_some]
          rw [← hkey, hc]
          simp only [Option.getD_some]
          exact List.mem_map.mpr ⟨((b.x, b.y, b.z), b2), hmem, hb2⟩

/-! ## Document sparseness -/

/-- Executable sparseness check on a serialized document: it is an object with
an object rooms field, every room maps to an object with at least one chunk,
and every chunk to a non-empty array. -/
def docSparse (raw : RawDoc) : Bool :=
  match raw with
  | .nonObject => false
  | .obj none => false
  | .obj (some rooms) =>
    rooms.all fun re =>
      match re.2 with
      | none => false
      | some rd =>
        (!rd.isEmpty) && rd.all fun ce =>
          match ce.2 with
          | none => false
          | some bs => !bs.isEmpty

theorem docSparse_serialize_of_worldWF (w : World) (h : WorldWF w) :
    docSparse (serializeWorldState w) = true := by
  obtain ⟨-, h⟩ := h
  simp only [serializeWorldState, docSparse, List.all_eq_true, List.mem_map]
  rintro a ⟨re, hre, rfl⟩
  obtain ⟨hne, -, hch⟩ := h re hre
  simp only [Bool.and_eq_true, List.all_eq_true, List.mem_map]
  have hmapne : re.2.map (fun ce => (ce.1, some (ce.2.map fun be => rawOfBlock be.2))) ≠ [] := by
    simp [hne]
  refine ⟨by simp [isEmpty_false_of_ne_nil hmapne], ?_⟩
  rintro c ⟨ce, hce, rfl⟩
  obtain ⟨hcne, -, -⟩ := hch ce hce
  have : ce.2.map (fun be => rawOfBlock be.2) ≠ [] := by simp [hcne]
  simp [isEmpty_false_of_ne_nil this]

/-! ## The claims -/

/-- C1: for every sequence of setBlock calls applied to the initially empty
store, the final store realizes last-write-per-coordinate-wins: each
(room, x, y, z) maps to the id of the last call touching that coordinate when
that id is positive, and holds no record there when the last such call has
id <= 0 (or no call touched it). -/
theorem claim_C1_last_write_wins (calls : List SetCall) (room : String)
    (x y z : Int) :
    getBlock (runSetCalls calls) room x y z = lastWriteId calls room x y z := by
  rw [runSetCalls, getBlock_foldl calls [] worldWF_nil room x y z, lastWriteId]
  rfl

/-- C2: serialize then hydrate reproduces every reachable store state exactly
(hence, in particular, up to ordering), and re-serializing the hydrated
result gives back the very same document. -/
theorem claim_C2_serialize_hydrate_round_trip (ops : List StoreOp) (prev : World) :
    hydrateWorldState prev (serializeWorldState (runStoreOps ops)) = runStoreOps ops ∧
    serializeWorldState (hydrateWorldState prev (serializeWorldState (runStoreOps ops))) =
      serializeWorldState (runStoreOps ops) := by
  have h := hydrate_serialize (runStoreOps ops) prev (worldWF_runStoreOps ops)
  exact ⟨h, by rw [h]⟩

/-- C3: every store state reachable by setBlock and hydrate operations is
sparse — no room entry with an empty chunk map, no empty chunk, no block
record with id <= 0 — and consequently the serialized document also contains
no empty chunks or rooms. -/
theorem claim_C3_sparse_store_invariant (ops : List StoreOp) :
    storeInv (runStoreOps ops) = true ∧
    docSparse (serializeWorldState (runStoreOps ops)) = true :=
  ⟨storeInv_of_worldWF _ (worldWF_runStoreOps ops),
   docSparse_serialize_of_worldWF _ (worldWF_runStoreOps ops)⟩

/-- C4: in every membership map reachable by addToRoom/removeFromRoom
operations, a room key is present exactly when its membership set is
non-empty; moreover removeFromRoom never drops a member other than the one
removed (so a set that still has members is never deleted) and addToRoom never
drops a member. -/
theorem claim_C4_membership_invariant :
    (∀ (ops : List RoomOp) (room : String),
      jhas (runRoomOps ops) room = true ↔ (jget (runRoomOps ops) room).getD [] ≠ []) ∧
    (∀ (rs : Rooms) (ws : Nat) (room : String) (p : Nat) (r' : String),
      p ∈ (jget rs r').getD [] → (r' ≠ room ∨ p ≠ ws) →
        p ∈ (jget (removeFromRoom rs ws room) r').getD []) ∧
    (∀ (rs : Rooms) (ws : Nat) (room : String) (p : Nat) (r' : String),
      p ∈ (jget rs r').getD [] → p ∈ (jget (addToRoom rs ws room) r').getD []) := by
  refine ⟨?_, ?_, ?_⟩
  · intro ops room
    cases hg : jget (runRoomOps ops) room with
    | none => simp [jhas, hg]
    | some set =>
      have hne := roomsNonempty_runRoomOps ops (room, set) (mem_of_jget _ _ _ hg)
      constructor
      · intro _
        simpa using hne
      · intro _
        simp [jhas, hg]
  · intro rs ws room p r' hp hne
    unfold removeFromRoom
    cases hg : jget rs room with
    | none => exact hp
    | some set =>
      by_cases hr : r' = room
      · rw [hr] at hp ⊢
        rw [hg] at hp
        simp only [Option.getD_some] at hp
        have hpw : p ≠ ws := by
          rcases hne with h | h
          · exact absurd hr h
          · exact h
        have hp2 : p ∈ set.erase ws := (List.mem_erase_of_ne hpw).mpr hp
        have hlen : ¬ (set.erase ws).length = 0 := by
          intro h0
          rw [List.length_eq_zero] at h0
          rw [h0] at hp2
          simp at hp2
        simp only [if_neg hlen]
        rw [jget_jset_self]
        simpa using hp2
      · by_cases hlen : (set.erase ws).length = 0
        · simp only [if_pos hlen]
          rw [jget_jdel_ne rs (Ne.symm hr)]
          exact hp
        · simp only [if_neg hlen]
          rw [jget_jset_ne rs _ (Ne.symm hr)]
          exact hp
  · intro rs ws room p r' hp
    rw [addToRoom_eq]
    by_cases hr : r' = room
    · rw [hr] at hp ⊢
      rw [jget_jset_self]
      simp only [Option.getD_some]
      by_cases hmem : ws ∈ (jget rs room).getD []
      · simpa [hmem] using hp
      · simp only [if_neg hmem]
        exact List.mem_append_left _ hp
    · rw [jget_jset_ne rs _ (Ne.symm hr)]
      exact hp

theorem claim_C4_witness :
    (jhas (runRoomOps [RoomOp.add 1 "R"]) "R" = true ↔
      (jget (runRoomOps [RoomOp.add 1 "R"]) "R").getD [] ≠ []) ∧
    2 ∈ (jget (removeFromRoom [("R", [1, 2])] 1 "R") "R").getD [] ∧
    2 ∈ (jget (addToRoom [("R", [2])] 1 "R") "R").getD [] :=
  ⟨claim_C4_membership_invariant.1 [RoomOp.add 1 "R"] "R",
   claim_C4_membership_invariant.2.1 [("R", [1, 2])] 1 "R" 2 "R"
     (by decide) (by decide),
   claim_C4_membership_invariant.2.2 [("R", [2])] 1 "R" 2 "R" (by decide)⟩

/-- C5 fails as stated: peer 2 is a member of room "R" together with peer 1,
yet a broadcast triggered by peer 1 does not reach peer 2 when peer 2's
connection is not open (`readyState !== 1`) — the code skips non-writable
sockets. -/
theorem claim_C5_counterexample :
    1 ∈ (jget ([("R", [1, 2])] : Rooms) "R").getD [] ∧
    2 ∈ (jget ([("R", [1, 2])] : Rooms) "R").getD [] ∧
    2 ∉ broadcastToRoom [("R", [1, 2])] (fun c => c == 1) "R" (some 1) := by
  decide

/-- C5 (amended): delivery from broadcastToRoom goes exactly to the open
(readyState 1) sockets of the target room's membership set minus the excluded
peer.  In particular a peer that is not a member of the room (e.g. a member of
a different room) never receives, and an open same-room peer other than the
excluded sender always receives. -/
theorem claim_C5_broadcast_delivery (rs : Rooms) (ready : Nat → Bool)
    (room : String) (except : Option Nat) (p : Nat) :
    p ∈ broadcastToRoom rs ready room except ↔
      p ∈ (jget rs room).getD [] ∧ ready p = true ∧ some p ≠ except := by
  unfold broadcastToRoom
  cases hg : jget rs room with
  | none => simp
  | some set =>
    simp only [Option.getD_some, List.mem_filter, Bool.and_eq_true,
      decide_eq_true_eq]
    tauto

/-- C6: a PLAYER_STATE message in which any of x, y, z, yaw, pitch does not
coerce to a finite number is dropped: the peer (including its stored state)
is unchanged and no broadcast is emitted. -/
theorem claim_C6_nonfinite_player_state_dropped (peer : Peer) (m : PSMsg)
    (h : m.x = none ∨ m.y = none ∨ m.z = none ∨ m.yaw = none ∨ m.pitch = none) :
    handlePlayerState peer m = (peer, none) := by
  obtain ⟨mx, my, mz, myaw, mpitch, mmov, mcr, mpa, mpl, mhb⟩ := m
  cases mx <;> cases my <;> cases mz <;> cases myaw <;> cases mpitch <;>
    simp_all [handlePlayerState]

theorem claim_C6_witness :
    handlePlayerState
      ⟨"p1", "Player", "", "GLOBAL", ⟨0, 80, 0, 0, 0, false, false, 0, 0, 2⟩⟩
      ⟨some 1, some 2, some 3, none, some 0, false, false, none, none, none⟩ =
      (⟨"p1", "Player", "", "GLOBAL", ⟨0, 80, 0, 0, 0, false, false, 0, 0, 2⟩⟩, none) :=
  claim_C6_nonfinite_player_state_dropped _ _ (by decide)

/-- C7: getChunkBlocks never fails — it returns `[]` when the room or the
chunk is absent, the chunk's stored record list when present — and on a store
reachable by setBlock calls a block is in the returned list exactly when it is
the live block at its coordinates and its chunk key is the requested one. -/
theorem claim_C7_get_chunk_blocks (w : World) (calls : List SetCall)
    (room : String) (cx cz : Int) (b : Block) :
    (jget w room = none → getChunkBlocks w room cx cz = []) ∧
    (∀ chunks, jget w room = some chunks →
      jget chunks (coordKey cx cz) = none → getChunkBlocks w room cx cz = []) ∧
    (∀ chunks cMap, jget w room = some chunks →
      jget chunks (coordKey cx cz) = some cMap →
      getChunkBlocks w room cx cz = cMap.map Prod.snd) ∧
    (b ∈ getChunkBlocks (runSetCalls calls) room cx cz ↔
      (getBlock (runSetCalls calls) room b.x b.y b.z = some b.id ∧
        blockChunkKey b.x b.z = coordKey cx cz)) := by
  refine ⟨?_, ?_, ?_, ?_⟩
  · intro h
    rw [getChunkBlocks_chain, h]
    rfl
  · intro chunks h1 h2
    rw [getChunkBlocks_chain, h1]
    simp only [Option.getD_some]
    rw [h2]
    rfl
  · intro chunks cMap h1 h2
    rw [getChunkBlocks_chain, h1]
    simp only [Option.getD_some]
    rw [h2]
    rfl
  · exact mem_getChunkBlocks_iff (runSetCalls calls) (worldWF_runSetCalls calls)
      (placed_runSetCalls calls) room cx cz b

theorem claim_C7_witness :
    getChunkBlocks [] "R" 0 0 = [] ∧
    Block.mk 1 2 3 5 ∈ getChunkBlocks (runSetCalls [⟨"R", 1, 2, 3, 5⟩]) "R" 0 0 := by
  have h := claim_C7_get_chunk_blocks [] [⟨"R", 1, 2, 3, 5⟩] "R" 0 0 ⟨1, 2, 3, 5⟩
  exact ⟨h.1 rfl, (h.2.2.2).mpr (by decide)⟩

set_option maxRecDepth 16384 in
/-- C8 fails as stated: the number 5 is not a string, yet normalizeRoom maps
it to "5", not to "GLOBAL" — `String(room || "GLOBAL")` coerces truthy
non-string values instead of defaulting them. -/
theorem claim_C8_counterexample :
    normalizeRoom (RoomVal.num 5) = "5" ∧ ("5" : String) ≠ "GLOBAL" := by
  decide

set_option maxRecDepth 16384 in
/-- C8 (amended): falsy inputs (empty string, 0, false, null, absent) map to
"GLOBAL"; a string input is trimmed, uppercased, truncated to 32 characters,
with "GLOBAL" when that leaves the empty string; a truthy non-string input is
first coerced to its JavaScript string rendering and then trimmed, uppercased
and truncated like a string (it is not defaulted to "GLOBAL"); the scenario
input "abc " maps to "ABC". -/
theorem claim_C8_normalize_room (v : RoomVal) (s : String) :
    (jsTruthy v = false → normalizeRoom v = "GLOBAL") ∧
    (normalizeRoom (RoomVal.str s) =
      (if jsSlice32 (jsToUpper (jsTrim s)) = "" then "GLOBAL"
       else jsSlice32 (jsToUpper (jsTrim s)))) ∧
    (jsTruthy v = true → normalizeRoom v =
      (if jsSlice32 (jsToUpper (jsTrim (jsToString v))) = "" then "GLOBAL"
       else jsSlice32 (jsToUpper (jsTrim (jsToString v))))) ∧
    normalizeRoom (RoomVal.str "abc ") = "ABC" := by
  refine ⟨?_, ?_, ?_, by decide⟩
  · intro h
    simp only [normalizeRoom, h, Bool.false_eq_true, if_false]
    decide
  · by_cases hs : s = ""
    · subst hs
      decide
    · have ht : jsTruthy (RoomVal.str s) = true := by
        simp [jsTruthy, hs]
      simp only [normalizeRoom, ht, if_true, jsToString]
  · intro h
    simp only [normalizeRoom, h, if_true]

set_option maxRecDepth 16384 in
theorem claim_C8_witness :
    normalizeRoom RoomVal.nullv = "GLOBAL" ∧
    normalizeRoom (RoomVal.str " hi ") = "HI" ∧
    normalizeRoom (RoomVal.num 7) = "7" := by
  refine ⟨(claim_C8_normalize_room RoomVal.nullv "").1 (by decide), ?_, ?_⟩
  · rw [(claim_C8_normalize_room RoomVal.nullv " hi ").2.1]
    decide
  · rw [(claim_C8_normalize_room (RoomVal.num 7) "").2.2.1 (by decide)]
    decide

/-- C9 fails as stated against the variant handler in src/unnamed/part_000:
an accepted PLAYER_STATE message (all of x, y, z, yaw, pitch finite) whose
heldBlock is absent/non-finite stores heldBlock 0 there, not 2, and the
message is not dropped (a broadcast is emitted). -/
theorem claim_C9_counterexample :
    (Part000.handlePlayerState
        ⟨"p1", "Player", "", "GLOBAL", ⟨0, 80, 0, 0, 0, false, false, 0, 0, 0⟩⟩
        ⟨some 1, some 2, some 3, some 0, some 0, false, false, some 0, some 0,
          none⟩).1.state.heldBlock = 0 ∧
    (Part000.handlePlayerState
        ⟨"p1", "Player", "", "GLOBAL", ⟨0, 80, 0, 0, 0, false, false, 0, 0, 0⟩⟩
        ⟨some 1, some 2, some 3, some 0, some 0, false, false, some 0, some 0,
          none⟩).2 ≠ none ∧
    (0 : Int) ≠ 2 := by
  decide

/-- C9 (amended): in the src/server.js handler the default is as claimed —
for every accepted PLAYER_STATE message (x, y, z, yaw, pitch all finite)
whose heldBlock is absent or non-finite, the stored and broadcast heldBlock
is 2.  The variant handler in src/unnamed/part_000 instead defaults heldBlock
to 0 (see the counterexample). -/
theorem claim_C9_held_block_default (peer : Peer) (m : PSMsg)
    (x y z yaw pitch : Int)
    (hx : m.x = some x) (hy : m.y = some y) (hz : m.z = some z)
    (hyaw : m.yaw = some yaw) (hpitch : m.pitch = some pitch)
    (hheld : m.heldBlock = none) :
    (handlePlayerState peer m).1.state.heldBlock = 2 ∧
    ∃ bc, (handlePlayerState peer m).2 = some bc ∧ bc.heldBlock = 2 := by
  obtain ⟨mx, my, mz, myaw, mpitch, mmov, mcr, mpa, mpl, mhb⟩ := m
  have hx' : mx = some x := hx
  have hy' : my = some y := hy
  have hz' : mz = some z := hz
  have hyaw' : myaw = some yaw := hyaw
  have hpitch' : mpitch = some pitch := hpitch
  have hheld' : mhb = none := hheld
  subst hx'
  subst hy'
  subst hz'
  subst hyaw'
  subst hpitch'
  subst hheld'
  exact ⟨rfl, _, rfl, rfl⟩

theorem claim_C9_witness :
    (handlePlayerState
        ⟨"p1", "Player", "", "GLOBAL", ⟨0, 80, 0, 0, 0, false, false, 0, 0, 2⟩⟩
        ⟨some 1, some 2, some 3, some 0, some 0, true, false, some 1, some 0,
          none⟩).1.state.heldBlock = 2 ∧
    ∃ bc, (handlePlayerState
        ⟨"p1", "Player", "", "GLOBAL", ⟨0, 80, 0, 0, 0, false, false, 0, 0, 2⟩⟩
        ⟨some 1, some 2, some 3, some 0, some 0, true, false, some 1, some 0,
          none⟩).2 = some bc ∧ bc.heldBlock = 2 :=
  claim_C9_held_block_default _ _ 1 2 3 0 0 rfl rfl rfl rfl rfl rfl

/-- C10: hydrateWorldState clears the store before validating its argument:
a value that is falsy or not an object, and an object whose rooms field is
missing or not an object, both yield the empty store whatever the previous
contents were; and for every input the result is independent of the previous
store (the old contents are discarded, never preserved). -/
theorem claim_C10_hydrate_clears (prev : World) (raw : RawDoc) :
    hydrateWorldState prev RawDoc.nonObject = [] ∧
    hydrateWorldState prev (RawDoc.obj none) = [] ∧
    hydrateWorldState prev raw = hydrateWorldState [] raw := by
  refine ⟨rfl, rfl, ?_⟩
  cases raw with
  | nonObject => rfl
  | obj o => cases o <;> rfl

end VoxelVerse
